import Mathlib

/-!
Verification of the hyper-staticfile2 static file server core.

This file gives a shallow embedding, in Lean 4, of the parts of the
source relevant to the frozen claims:

* `src/util/requested_path.rs` — percent decoding and path sanitization
  (`decode_percents`, `sanitize_path`, `RequestedPath::resolve`);
* `src/util/file_bytes_stream.rs` — the streaming body engine
  (`FileBytesStream`, `FileBytesStreamMultiRange`, `compute_length`,
  `render_multipart_header`);
* `src/vfs.rs` — the two `FileAccess` read implementations;
* `src/resolve.rs` — `Resolver::resolve_final` (pre-compressed sibling
  selection);
* `src/util/file_response_builder.rs` — `FileResponseBuilder::build`.

Strings are modelled as Lean strings or lists of characters; byte
sequences as lists of naturals. Machine integers (`u64`) are modelled
as `Nat`; where the source could only differ from the `Nat` model by
overflow or truncated subtraction this is noted at the definition.
Paths are modelled for a Unix target: a component is a root, current
dir, parent dir, or a normal name (Windows drive-letter components do
not arise on the target and are not modelled).
-/

/-! ## Byte and string utilities -/

/-- UTF-8 encoding of one unicode scalar value, as a list of bytes. -/
def utf8EncodeChar (c : Char) : List Nat :=
  let n := c.toNat
  if n < 0x80 then [n]
  else if n < 0x800 then [0xC0 + n / 64, 0x80 + n % 64]
  else if n < 0x10000 then
    [0xE0 + n / 4096, 0x80 + (n / 64) % 64, 0x80 + n % 64]
  else
    [0xF0 + n / 262144, 0x80 + (n / 4096) % 64, 0x80 + (n / 64) % 64, 0x80 + n % 64]

/-- UTF-8 encoding of a list of characters. -/
def utf8Encode (s : List Char) : List Nat :=
  (s.map utf8EncodeChar).flatten

/-- Byte length of a Lean string, i.e. the length of its UTF-8 encoding.
Models Rust `str::as_bytes().len()`. -/
def strByteLen (s : String) : Nat :=
  (utf8Encode s.data).length

/-- Value of one hex digit byte, as used by the percent decoder
(case-insensitive, per the `percent-encoding` crate). -/
def hexDigitVal (b : Nat) : Option Nat :=
  if 48 ≤ b ∧ b ≤ 57 then some (b - 48)
  else if 97 ≤ b ∧ b ≤ 102 then some (b - 87)
  else if 65 ≤ b ∧ b ≤ 70 then some (b - 55)
  else none

/-- Percent decoding at the byte level, as in
`percent_encoding::percent_decode_str`: a `%` followed by two hex digit
bytes decodes to the byte they denote; a `%` not followed by two hex
digits is passed through literally and scanning resumes at the next
byte. -/
def percentDecodeBytes : List Nat → List Nat
  | [] => []
  | 37 :: h1 :: h2 :: rest =>
    match hexDigitVal h1, hexDigitVal h2 with
    | some a, some b => (16 * a + b) :: percentDecodeBytes rest
    | _, _ => 37 :: percentDecodeBytes (h1 :: h2 :: rest)
  | b :: rest => b :: percentDecodeBytes rest

/-- Continuation byte test for the UTF-8 decoder. -/
def isCont (b : Nat) : Bool := 128 ≤ b && b ≤ 191

/-- The Unicode replacement character U+FFFD. -/
def replChar : Char := Char.ofNat 0xFFFD

/-- Second-byte admissibility for a three-byte UTF-8 sequence beginning
with `b0` (rules out overlong forms and surrogates, as Rust does). -/
def cont3Ok (b0 b1 : Nat) : Bool :=
  if b0 = 0xE0 then 0xA0 ≤ b1 && b1 ≤ 0xBF
  else if b0 = 0xED then 0x80 ≤ b1 && b1 ≤ 0x9F
  else isCont b1

/-- Second-byte admissibility for a four-byte UTF-8 sequence beginning
with `b0` (rules out overlong forms and values above U+10FFFF). -/
def cont4Ok (b0 b1 : Nat) : Bool :=
  if b0 = 0xF0 then 0x90 ≤ b1 && b1 ≤ 0xBF
  else if b0 = 0xF4 then 0x80 ≤ b1 && b1 ≤ 0x8F
  else isCont b1

/-- Lossy UTF-8 decoding of a byte list, as in Rust
`String::from_utf8_lossy`: a maximal subpart of an ill-formed sequence
is replaced by one U+FFFD. -/
def utf8LossyDecode : List Nat → List Char
  | [] => []
  | b0 :: bs =>
    if b0 < 0x80 then Char.ofNat b0 :: utf8LossyDecode bs
    else if 0xC2 ≤ b0 && b0 ≤ 0xDF then
      match bs with
      | [] => [replChar]
      | b1 :: bs1 =>
        if isCont b1 then
          Char.ofNat ((b0 - 0xC0) * 64 + (b1 - 0x80)) :: utf8LossyDecode bs1
        else replChar :: utf8LossyDecode (b1 :: bs1)
    else if 0xE0 ≤ b0 && b0 ≤ 0xEF then
      match bs with
      | [] => [replChar]
      | [b1] =>
        if cont3Ok b0 b1 then [replChar] else replChar :: utf8LossyDecode [b1]
      | b1 :: b2 :: bs2 =>
        if cont3Ok b0 b1 then
          if isCont b2 then
            Char.ofNat ((b0 - 0xE0) * 4096 + (b1 - 0x80) * 64 + (b2 - 0x80)) ::
              utf8LossyDecode bs2
          else replChar :: utf8LossyDecode (b2 :: bs2)
        else replChar :: utf8LossyDecode (b1 :: b2 :: bs2)
    else if 0xF0 ≤ b0 && b0 ≤ 0xF4 then
      match bs with
      | [] => [replChar]
      | [b1] =>
        if cont4Ok b0 b1 then [replChar] else replChar :: utf8LossyDecode [b1]
      | [b1, b2] =>
        if cont4Ok b0 b1 then
          if isCont b2 then [replChar]
          else replChar :: utf8LossyDecode [b2]
        else replChar :: utf8LossyDecode [b1, b2]
      | b1 :: b2 :: b3 :: bs3 =>
        if cont4Ok b0 b1 then
          if isCont b2 then
            if isCont b3 then
              Char.ofNat
                ((b0 - 0xF0) * 262144 + (b1 - 0x80) * 4096 +
                  (b2 - 0x80) * 64 + (b3 - 0x80)) :: utf8LossyDecode bs3
            else replChar :: utf8LossyDecode (b3 :: bs3)
          else replChar :: utf8LossyDecode (b2 :: b3 :: bs3)
        else replChar :: utf8LossyDecode (b1 :: b2 :: b3 :: bs3)
    else replChar :: utf8LossyDecode bs

/-! ## Path model (`src/util/requested_path.rs`) -/

/-- Path components, as produced by Rust `Path::components()` on a Unix
target. -/
inductive RComp where
  | rootDir : RComp
  | curDir : RComp
  | parentDir : RComp
  | normal (name : List Char) : RComp
deriving DecidableEq, Repr

/-- Splits a character list at every slash. Always returns at least one
(possibly empty) piece. -/
def splitSlashR : List Char → List (List Char)
  | [] => [[]]
  | c :: rest =>
    let r := splitSlashR rest
    if c = '/' then [] :: r
    else
      match r with
      | h :: t => (c :: h) :: t
      | [] => [[c]]

/-- Nonempty pieces of a character list split at slashes: the raw
component names of a Unix path (repeated separators collapse, a
trailing separator adds nothing). -/
def splitSlash (s : List Char) : List (List Char) :=
  (splitSlashR s).filter (· ≠ [])

/-- Classification of one non-leading path piece: `.` is dropped, `..`
is a parent-dir component, anything else is a normal component. -/
def classifyPiece (p : List Char) : Option RComp :=
  if p = ['.'] then none
  else if p = ['.', '.'] then some .parentDir
  else some (.normal p)

/-- Rust `Path::components()` on a Unix target: a leading slash yields a
root component; a leading `.` piece (with no root) yields a current-dir
component; every later `.` piece is dropped; `..` pieces are parent-dir
components; all other pieces are normal components. -/
def parseComponents (s : List Char) : List RComp :=
  if s.head? = some '/' then
    .rootDir :: (splitSlash s).filterMap classifyPiece
  else
    match splitSlash s with
    | [] => []
    | p :: rest =>
      if p = ['.'] then .curDir :: rest.filterMap classifyPiece
      else (p :: rest).filterMap classifyPiece

/-- Tests whether a component is a `Normal` component. -/
def isNormalComp : RComp → Bool
  | .normal _ => true
  | _ => false

/-- One step of the fold in `sanitize_path` (requested_path.rs lines
11-23). The accumulated `PathBuf` is represented by its component list;
`result.push(x)` for a normal name appends one normal component and
`result.pop()` drops the last component. -/
def sanitizeStep (result : List RComp) (p : RComp) : List RComp :=
  match p with
  | .normal x =>
    if (parseComponents x).all isNormalComp then result ++ [.normal x]
    else result
  | .parentDir => result.dropLast
  | _ => result

/-- `sanitize_path` (requested_path.rs lines 10-24): fold the components
of the input path, keeping vetted normal components, popping on
parent-dir, dropping everything else. -/
def sanitizePath (comps : List RComp) : List RComp :=
  comps.foldl sanitizeStep []

/-- `decode_percents` (requested_path.rs lines 3-7): percent-decode the
UTF-8 bytes of the string, then decode back to text lossily. -/
def decodePercentsM (s : List Char) : List Char :=
  utf8LossyDecode (percentDecodeBytes (utf8Encode s))

/-- Result of `RequestedPath::resolve`. -/
structure RequestedPathM where
  sanitized : List RComp
  is_dir_request : Bool
deriving DecidableEq, Repr

/-- `RequestedPath::resolve` (requested_path.rs lines 31-40): record
whether the raw path ends in a slash, percent-decode it, then sanitize.
The last byte of the UTF-8 encoding is a slash exactly when the last
character is a slash, since `/` never occurs inside a multi-byte
sequence. -/
def requestedPathResolve (request_path : List Char) : RequestedPathM :=
  { sanitized := sanitizePath (parseComponents (decodePercentsM request_path)),
    is_dir_request := request_path.getLast? = some '/' }

/-- Display name of one component, as rendered by `PathBuf` on Unix. -/
def compName : RComp → List Char
  | .rootDir => []
  | .curDir => ['.']
  | .parentDir => ['.', '.']
  | .normal x => x

/-- Joins name pieces with slashes (the string form of a relative
`PathBuf` whose components are all normal). -/
def joinSlash : List (List Char) → List Char
  | [] => []
  | [n] => n
  | n :: ns => n ++ '/' :: joinSlash ns

/-- String form of a sanitized path: its component names joined by
slashes. -/
def pathToString (p : List RComp) : List Char :=
  joinSlash (p.map compName)

/-! ### Sanitizer lemmas -/

theorem sanitizeStep_all_normal (acc : List RComp) (p : RComp)
    (h : acc.all isNormalComp = true) :
    (sanitizeStep acc p).all isNormalComp = true := by
  cases p with
  | normal x =>
    simp only [sanitizeStep]
    split
    · simp_all [List.all_append, isNormalComp]
    · exact h
  | parentDir =>
    simp only [sanitizeStep]
    rw [List.all_eq_true] at h ⊢
    intro x hx
    exact h x (List.mem_of_mem_dropLast hx)
  | rootDir => exact h
  | curDir => exact h

theorem sanitizePath_aux_all_normal (comps : List RComp) :
    ∀ acc : List RComp, acc.all isNormalComp = true →
      (comps.foldl sanitizeStep acc).all isNormalComp = true := by
  induction comps with
  | nil => intro acc h; exact h
  | cons p rest ih =>
    intro acc h
    exact ih _ (sanitizeStep_all_normal acc p h)

/-- C1. For every input string given to the path sanitizer, the
sanitized path consists only of `Normal` components: parent-dir, root,
prefix and current-dir components never survive the fold in
`sanitize_path`, so the sanitized path, resolved relative to the
configured root, cannot name anything outside that root. -/
theorem sanitize_only_normal (s : List Char) :
    (sanitizePath (parseComponents s)).all isNormalComp = true := by
  exact sanitizePath_aux_all_normal _ [] rfl

/-! ### Round-trip lemmas for the sanitizer -/

/-- A name that can appear as a path component: nonempty, slash-free,
and not one of the dot components. -/
def goodName (x : List Char) : Prop :=
  x ≠ [] ∧ '/' ∉ x ∧ x ≠ ['.'] ∧ x ≠ ['.', '.']

theorem splitSlashR_ne_nil (s : List Char) : splitSlashR s ≠ [] := by
  cases s with
  | nil => simp [splitSlashR]
  | cons c rest =>
    simp only [splitSlashR]
    split
    · simp
    · split <;> simp

theorem splitSlashR_no_slash (s : List Char) :
    ∀ p ∈ splitSlashR s, '/' ∉ p := by
  induction s with
  | nil =>
    intro p hp
    simp [splitSlashR] at hp
    subst hp; simp
  | cons c rest ih =>
    intro p hp
    by_cases hc : c = '/'
    · simp only [splitSlashR, hc, if_pos rfl] at hp
      rcases List.mem_cons.mp hp with h | h
      · subst h; simp
      · exact ih p h
    · cases hr : splitSlashR rest with
      | nil => exact absurd hr (splitSlashR_ne_nil rest)
      | cons h t =>
        simp only [splitSlashR, hr, if_neg hc] at hp
        rcases List.mem_cons.mp hp with h1 | h1
        · subst h1
          intro hmem
          rcases List.mem_cons.mp hmem with h2 | h2
          · exact hc h2.symm
          · exact ih h (by rw [hr]; exact List.mem_cons_self _ _) h2
        · exact ih p (by rw [hr]; exact List.mem_cons_of_mem _ h1)

theorem splitSlashR_cons (c : Char) (rest : List Char) :
    splitSlashR (c :: rest) =
      if c = '/' then [] :: splitSlashR rest
      else
        match splitSlashR rest with
        | h :: t => (c :: h) :: t
        | [] => [[c]] := rfl

theorem splitSlashR_append (n : List Char) (hn : '/' ∉ n) (s : List Char)
    (h : List Char) (t : List (List Char)) (hs : splitSlashR s = h :: t) :
    splitSlashR (n ++ s) = (n ++ h) :: t := by
  induction n with
  | nil => simpa using hs
  | cons c n' ih =>
    have hc : c ≠ '/' := fun hcc => hn (hcc ▸ List.mem_cons_self _ _)
    have hn' : '/' ∉ n' := fun hm => hn (List.mem_cons_of_mem _ hm)
    have ihr := ih hn'
    rw [List.cons_append, splitSlashR_cons, if_neg hc, ihr]
    rfl

theorem splitSlashR_joinSlash (names : List (List Char)) (hne : names ≠ [])
    (hs : ∀ n ∈ names, '/' ∉ n) : splitSlashR (joinSlash names) = names := by
  induction names with
  | nil => exact absurd rfl hne
  | cons n ns ih =>
    cases ns with
    | nil =>
      have h1 : splitSlashR (n ++ ([] : List Char)) = (n ++ []) :: [] :=
        splitSlashR_append n (hs n (List.mem_cons_self _ _)) [] [] [] rfl
      simpa [joinSlash] using h1
    | cons m ms =>
      have hrec : splitSlashR (joinSlash (m :: ms)) = m :: ms :=
        ih (by simp) (fun x hx => hs x (List.mem_cons_of_mem _ hx))
      have hslash : splitSlashR ('/' :: joinSlash (m :: ms)) =
          [] :: m :: ms := by
        rw [splitSlashR_cons, if_pos rfl, hrec]
      have := splitSlashR_append n (hs n (List.mem_cons_self _ _))
        ('/' :: joinSlash (m :: ms)) [] (m :: ms) hslash
      simpa [joinSlash] using this

theorem splitSlash_joinSlash (names : List (List Char))
    (hg : ∀ n ∈ names, goodName n) :
    splitSlash (joinSlash names) = names := by
  cases hne : names with
  | nil => simp [joinSlash, splitSlash, splitSlashR]
  | cons n ns =>
    rw [← hne]
    rw [splitSlash, splitSlashR_joinSlash names (by rw [hne]; simp)
      (fun x hx => (hg x hx).2.1)]
    exact List.filter_eq_self.mpr (fun a ha => by
      simpa using (hg a ha).1)

theorem classifyPiece_good (x : List Char) (hg : goodName x) :
    classifyPiece x = some (.normal x) := by
  rcases hg with ⟨-, -, h3, h4⟩
  simp [classifyPiece, h3, h4]

theorem filterMap_classify_good (names : List (List Char))
    (hg : ∀ n ∈ names, goodName n) :
    names.filterMap classifyPiece = names.map .normal := by
  induction names with
  | nil => rfl
  | cons n ns ih =>
    rw [List.filterMap_cons, classifyPiece_good n (hg n (List.mem_cons_self _ _)),
      List.map_cons, ih (fun x hx => hg x (List.mem_cons_of_mem _ hx))]

theorem joinSlash_head? (n : List Char) (ns : List (List Char)) (hne : n ≠ []) :
    (joinSlash (n :: ns)).head? = n.head? := by
  cases n with
  | nil => exact absurd rfl hne
  | cons c n' => cases ns <;> simp [joinSlash]

theorem parse_joinSlash (names : List (List Char))
    (hg : ∀ n ∈ names, goodName n) :
    parseComponents (joinSlash names) = names.map .normal := by
  cases names with
  | nil => simp [joinSlash, parseComponents, splitSlash, splitSlashR]
  | cons n ns =>
    have hgn := hg n (List.mem_cons_self _ _)
    have hhead : (joinSlash (n :: ns)).head? ≠ some '/' := by
      rw [joinSlash_head? n ns hgn.1]
      cases n with
      | nil => exact absurd rfl hgn.1
      | cons c n' =>
        simp only [List.head?_cons, ne_eq, Option.some.injEq]
        intro hcc
        exact hgn.2.1 (hcc ▸ List.mem_cons_self _ _)
    rw [parseComponents, if_neg hhead, splitSlash_joinSlash _ hg]
    have hdot : n ≠ ['.'] := hgn.2.2.1
    simp only [if_neg hdot]
    exact filterMap_classify_good _ hg

theorem parse_singleton_good (x : List Char) (hg : goodName x) :
    parseComponents x = [.normal x] := by
  have := parse_joinSlash [x] (by intro n hn; simp at hn; subst hn; exact hg)
  simpa [joinSlash] using this

theorem sanitize_map_normal_aux (names : List (List Char))
    (hg : ∀ n ∈ names, goodName n) :
    ∀ acc : List RComp,
      (names.map RComp.normal).foldl sanitizeStep acc =
        acc ++ names.map RComp.normal := by
  induction names with
  | nil => intro acc; simp
  | cons n ns ih =>
    intro acc
    have hgn := hg n (List.mem_cons_self _ _)
    have hstep : sanitizeStep acc (.normal n) = acc ++ [.normal n] := by
      simp [sanitizeStep, parse_singleton_good n hgn, isNormalComp]
    rw [List.map_cons, List.foldl_cons, hstep,
      ih (fun x hx => hg x (List.mem_cons_of_mem _ hx))]
    simp

theorem sanitize_map_normal (names : List (List Char))
    (hg : ∀ n ∈ names, goodName n) :
    sanitizePath (names.map RComp.normal) = names.map RComp.normal := by
  simpa using sanitize_map_normal_aux names hg []

theorem classifyPiece_normal (p x : List Char)
    (h : classifyPiece p = some (.normal x)) : x = p ∧ p ≠ ['.'] ∧ p ≠ ['.', '.'] := by
  by_cases h1 : p = ['.']
  · simp [classifyPiece, h1] at h
  · by_cases h2 : p = ['.', '.']
    · simp [classifyPiece, h1, h2] at h
    · simp only [classifyPiece, if_neg h1, if_neg h2, Option.some.injEq] at h
      exact ⟨(RComp.normal.injEq _ _ ▸ h.symm : x = p), h1, h2⟩

theorem mem_splitSlash_good (s : List Char) (p : List Char)
    (hp : p ∈ splitSlash s) : p ≠ [] ∧ '/' ∉ p := by
  rw [splitSlash, List.mem_filter] at hp
  exact ⟨by simpa using hp.2, splitSlashR_no_slash s p hp.1⟩

theorem parse_good (s : List Char) (x : List Char)
    (hx : RComp.normal x ∈ parseComponents s) : goodName x := by
  have main : ∀ l : List (List Char), (∀ p ∈ l, p ∈ splitSlash s) →
      RComp.normal x ∈ l.filterMap classifyPiece → goodName x := by
    intro l hl hmem
    rw [List.mem_filterMap] at hmem
    rcases hmem with ⟨p, hpl, hcl⟩
    rcases classifyPiece_normal p x hcl with ⟨hxp, hd1, hd2⟩
    rcases mem_splitSlash_good s p (hl p hpl) with ⟨hne, hns⟩
    subst hxp
    exact ⟨hne, hns, hd1, hd2⟩
  rw [parseComponents] at hx
  split at hx
  · rcases List.mem_cons.mp hx with h | h
    · exact absurd h (by simp)
    · exact main _ (fun p hp => hp) h
  · rename_i hroot
    split at hx
    · exact absurd hx (by simp)
    · rename_i p rest heq
      split at hx
      · rcases List.mem_cons.mp hx with h | h
        · exact absurd h (by simp)
        · exact main rest (fun q hq => by rw [heq]; exact List.mem_cons_of_mem _ hq) h
      · exact main (p :: rest) (fun q hq => by rw [heq]; exact hq) hx

theorem sanitize_good (cs : List RComp) :
    ∀ acc : List RComp,
      (∀ x, RComp.normal x ∈ acc → goodName x) →
      (∀ x, RComp.normal x ∈ cs → goodName x) →
      ∀ x, RComp.normal x ∈ cs.foldl sanitizeStep acc → goodName x := by
  induction cs with
  | nil => intro acc hacc _ x hx; exact hacc x hx
  | cons p rest ih =>
    intro acc hacc hcs x hx
    refine ih (sanitizeStep acc p) ?_ (fun y hy => hcs y (List.mem_cons_of_mem _ hy)) x hx
    intro y hy
    cases p with
    | normal z =>
      simp only [sanitizeStep] at hy
      split at hy
      · rcases List.mem_append.mp hy with h | h
        · exact hacc y h
        · have heq : RComp.normal y = RComp.normal z := List.mem_singleton.mp h
          have hz := hcs z (List.mem_cons_self _ _)
          rwa [RComp.normal.inj heq]
      · exact hacc y hy
    | parentDir => exact hacc y (List.mem_of_mem_dropLast hy)
    | rootDir => exact hacc y hy
    | curDir => exact hacc y hy

theorem all_normal_eq_map (p : List RComp) (h : p.all isNormalComp = true) :
    (p.map compName).map RComp.normal = p := by
  induction p with
  | nil => rfl
  | cons c rest ih =>
    rw [List.all_cons, Bool.and_eq_true] at h
    cases c with
    | normal x => simp [compName, ih h.2]
    | rootDir => simp [isNormalComp] at h
    | curDir => simp [isNormalComp] at h
    | parentDir => simp [isNormalComp] at h

/-- C7 (amended). When percent-decoding leaves the string form of the
sanitized path unchanged, feeding that string form back through
`RequestedPath::resolve` yields the same sanitized path. (Without that
proviso the claim fails: `decode_percents` runs again on the second
pass and can turn an already-sanitized component such as `%2e%2e` into
`..`, which the fold then pops — see the counterexample.) -/
theorem resolve_idem_of_decode_fixed (s : List Char)
    (h : decodePercentsM (pathToString (requestedPathResolve s).sanitized) =
         pathToString (requestedPathResolve s).sanitized) :
    (requestedPathResolve (pathToString (requestedPathResolve s).sanitized)).sanitized =
      (requestedPathResolve s).sanitized := by
  have hall : ((requestedPathResolve s).sanitized).all isNormalComp = true :=
    sanitizePath_aux_all_normal _ [] rfl
  have hpn := all_normal_eq_map _ hall
  have hgood : ∀ n ∈ ((requestedPathResolve s).sanitized).map compName, goodName n := by
    intro n hn
    have hmem : RComp.normal n ∈ (requestedPathResolve s).sanitized := by
      rw [← hpn]
      exact List.mem_map_of_mem _ hn
    exact sanitize_good _ [] (by simp) (fun x hx => parse_good _ x hx) n hmem
  show sanitizePath (parseComponents (decodePercentsM
      (pathToString (requestedPathResolve s).sanitized))) =
    (requestedPathResolve s).sanitized
  rw [h, pathToString, parse_joinSlash _ hgood, sanitize_map_normal _ hgood]
  exact hpn

/-- C7 counterexample. For the input `%252e%252e` the claim as stated
fails: the first resolve yields the single component `%2e%2e`, but
resolving that string form percent-decodes it to `..`, which the fold
pops, yielding the empty path. -/
theorem resolve_not_idem_counterexample :
    (requestedPathResolve (pathToString
        (requestedPathResolve
          ['%', '2', '5', '2', 'e', '%', '2', '5', '2', 'e']).sanitized)).sanitized ≠
      (requestedPathResolve
        ['%', '2', '5', '2', 'e', '%', '2', '5', '2', 'e']).sanitized := by
  decide

/-- C7 witness. A concrete instantiation of the amended idempotence
theorem at the input `a/b`. -/
theorem resolve_idem_witness :
    decodePercentsM (pathToString (requestedPathResolve ['a', '/', 'b']).sanitized) =
        pathToString (requestedPathResolve ['a', '/', 'b']).sanitized ∧
      (requestedPathResolve (pathToString
          (requestedPathResolve ['a', '/', 'b']).sanitized)).sanitized =
        (requestedPathResolve ['a', '/', 'b']).sanitized :=
  ⟨by decide, resolve_idem_of_decode_fixed ['a', '/', 'b'] (by decide)⟩

/-! ## Multi-range body stream (`src/util/file_bytes_stream.rs`) -/

/-- An HTTP byte range normalized to absolute offsets (the `http_range`
crate type): a start offset and a length. -/
structure HttpRangeM where
  start : Nat
  length : Nat
deriving DecidableEq

/-- `render_multipart_header` (file_bytes_stream.rs lines 185-210),
written as the same sequence of buffer pushes. In the source
`range.start + range.length - 1` is `u64` arithmetic; ranges produced
by the range parser have `length ≥ 1`, for which the `Nat` model
agrees. -/
def renderMultipartHeader (boundary contentType : String) (range : HttpRangeM)
    (isFirst : Bool) (fileLength : Nat) : String :=
  let buf : String := ""
  let buf := if isFirst then buf else buf ++ "\r\n"
  let buf := buf ++ "--" ++ boundary ++ "\r\nContent-Range: " ++
    toString range.start ++ "-" ++ toString (range.start + range.length - 1) ++
    "/" ++ toString fileLength ++ "\r\n"
  let buf := if contentType = "" then buf
    else buf ++ "Content-Type: " ++ contentType ++ "\r\n"
  buf ++ "\r\n"

/-- `render_multipart_header_end` (file_bytes_stream.rs lines 212-214). -/
def renderMultipartHeaderEnd (boundary : String) : String :=
  "\r\n--" ++ boundary ++ "--\r\n"

/-- The loop of `compute_length` (file_bytes_stream.rs lines 169-177):
for each remaining range, the byte length of its rendered header plus
the range length, with a loop-local first-part flag that starts true. -/
def computeLengthGo (boundary contentType : String) (fileLength : Nat) :
    List HttpRangeM → Bool → Nat
  | [], _ => 0
  | r :: rest, isFirst =>
    strByteLen (renderMultipartHeader boundary contentType r isFirst fileLength) +
      r.length + computeLengthGo boundary contentType fileLength rest false

/-- State of `FileBytesStreamMultiRange`. `remaining` is the inner
`FileBytesStream` budget, `startOffset` the inner seek target,
`ranges` the unconsumed part of `range_iter`. The seek sub-states gate
only on asynchronous readiness and contribute no bytes, so they are
not modelled. -/
structure MultiRangeState where
  remaining : Nat
  startOffset : Nat
  ranges : List HttpRangeM
  isFirstBoundary : Bool
  completed : Bool
  boundary : String
  contentType : String
  fileLength : Nat

/-- `FileBytesStreamMultiRange::new` (file_bytes_stream.rs lines
145-155): the inner range stream starts exhausted (`remaining = 0`),
the boundary flag is set, and the per-part content type is empty. -/
def newMultiRange (ranges : List HttpRangeM) (boundary : String)
    (fileLength : Nat) : MultiRangeState :=
  { remaining := 0, startOffset := 0, ranges := ranges,
    isFirstBoundary := true, completed := false, boundary := boundary,
    contentType := "", fileLength := fileLength }

/-- `set_content_type` (file_bytes_stream.rs lines 157-159). -/
def setContentType (s : MultiRangeState) (contentType : String) : MultiRangeState :=
  { s with contentType := contentType }

/-- A freshly constructed multi-range stream with its per-part content
type installed, as the response builder does. -/
def mkMultiRange (ranges : List HttpRangeM) (boundary contentType : String)
    (fileLength : Nat) : MultiRangeState :=
  setContentType (newMultiRange ranges boundary fileLength) contentType

/-- `compute_length` (file_bytes_stream.rs lines 161-182): sum over the
ranges still in the iterator, plus the closing boundary chunk. -/
def computeLength (s : MultiRangeState) : Nat :=
  computeLengthGo s.boundary s.contentType s.fileLength s.ranges true +
    strByteLen (renderMultipartHeaderEnd s.boundary)

/-- One poll of `FileBytesStreamMultiRange::poll_next`
(file_bytes_stream.rs lines 219-260), returning the byte length of the
emitted chunk (`none` is end-of-stream). The final arm delegates to
the inner range stream; per the assumption of claim C2, a ranged read
delivers exactly the requested bytes, i.e. one chunk of `remaining`
bytes. -/
def pollNextM (s : MultiRangeState) : Option Nat × MultiRangeState :=
  if s.completed then (none, s)
  else if s.remaining = 0 then
    match s.ranges with
    | [] =>
      (some (strByteLen (renderMultipartHeaderEnd s.boundary)),
        { s with completed := true })
    | r :: rest =>
      (some (strByteLen (renderMultipartHeader s.boundary s.contentType r
          s.isFirstBoundary s.fileLength)),
        { s with
            ranges := rest, remaining := r.length, startOffset := r.start,
            isFirstBoundary := false })
  else
    (some s.remaining, { s with remaining := 0 })

/-- Drives the stream for at most `fuel` polls, returning the total
number of body bytes emitted and the final state. -/
def drainFuel : Nat → MultiRangeState → Nat × MultiRangeState
  | 0, s => (0, s)
  | fuel + 1, s =>
    match pollNextM s with
    | (none, s1) => (0, s1)
    | (some n, s1) =>
      let rest := drainFuel fuel s1
      (n + rest.1, rest.2)

/-! ### Byte-length and rendering lemmas -/

theorem str_append_assoc (a b c : String) : a ++ b ++ c = a ++ (b ++ c) := by
  cases a; cases b; cases c
  show String.mk _ = String.mk _
  rw [List.append_assoc]

theorem strByteLen_append (a b : String) :
    strByteLen (a ++ b) = strByteLen a + strByteLen b := by
  cases a; cases b
  show strByteLen (String.mk _) = _
  simp [strByteLen, utf8Encode]

/-- The rendered header for a non-first part is the first-part header
with a CRLF prepended. -/
theorem renderMultipartHeader_false (bd ct : String) (r : HttpRangeM) (fl : Nat) :
    renderMultipartHeader bd ct r false fl =
      "\r\n" ++ renderMultipartHeader bd ct r true fl := by
  by_cases hct : ct = "" <;>
    simp only [renderMultipartHeader, hct, if_true, reduceIte, Bool.false_eq_true] <;>
    simp [str_append_assoc] <;> rfl

theorem strByteLen_pos_of_crlf_suffix (a : String) :
    0 < strByteLen (a ++ "\r\n") := by
  rw [strByteLen_append]
  have h2 : strByteLen "\r\n" = 2 := by decide
  omega

theorem renderMultipartHeader_len_pos (bd ct : String) (r : HttpRangeM)
    (isFirst : Bool) (fl : Nat) :
    0 < strByteLen (renderMultipartHeader bd ct r isFirst fl) := by
  simp only [renderMultipartHeader]
  exact strByteLen_pos_of_crlf_suffix _

theorem computeLengthGo_first_le (bd ct : String) (fl : Nat)
    (rs : List HttpRangeM) :
    computeLengthGo bd ct fl rs true ≤ computeLengthGo bd ct fl rs false := by
  cases rs with
  | nil => exact le_refl _
  | cons r rest =>
    simp only [computeLengthGo]
    have h := renderMultipartHeader_false bd ct r fl
    have hl : strByteLen (renderMultipartHeader bd ct r false fl) =
        2 + strByteLen (renderMultipartHeader bd ct r true fl) := by
      rw [h, strByteLen_append]
      have h2 : strByteLen "\r\n" = 2 := by decide
      omega
    omega

/-! ### Drain lemmas -/

theorem drainFuel_of_completed (fuel : Nat) (s : MultiRangeState)
    (h : s.completed = true) : drainFuel fuel s = (0, s) := by
  cases fuel with
  | zero => rfl
  | succ f => simp [drainFuel, pollNextM, h]

theorem drainFuel_succ_some (fuel : Nat) (s s1 : MultiRangeState) (n : Nat)
    (h : pollNextM s = (some n, s1)) :
    drainFuel (fuel + 1) s =
      (n + (drainFuel fuel s1).1, (drainFuel fuel s1).2) := by
  rw [drainFuel, h]

theorem pollNextM_flush (s : MultiRangeState) (h1 : s.completed = false)
    (h2 : s.remaining ≠ 0) :
    pollNextM s = (some s.remaining, { s with remaining := 0 }) := by
  simp [pollNextM, h1, h2]

theorem drainFuel_zero_rem (bd ct : String) (fl : Nat) :
    ∀ (ranges : List HttpRangeM) (isFirst : Bool) (so fuel : Nat),
      2 * ranges.length + 2 ≤ fuel →
      (drainFuel fuel ⟨0, so, ranges, isFirst, false, bd, ct, fl⟩).1 =
          computeLengthGo bd ct fl ranges isFirst +
            strByteLen (renderMultipartHeaderEnd bd) ∧
        (drainFuel fuel ⟨0, so, ranges, isFirst, false, bd, ct, fl⟩).2.completed =
          true := by
  intro ranges
  induction ranges with
  | nil =>
    intro isFirst so fuel hfuel
    match fuel, hfuel with
    | f + 1, _ =>
      have hp : pollNextM ⟨0, so, [], isFirst, false, bd, ct, fl⟩ =
          (some (strByteLen (renderMultipartHeaderEnd bd)),
            ⟨0, so, [], isFirst, true, bd, ct, fl⟩) := rfl
      rw [drainFuel_succ_some f _ _ _ hp,
        drainFuel_of_completed f ⟨0, so, [], isFirst, true, bd, ct, fl⟩ rfl]
      exact ⟨by simp [computeLengthGo], rfl⟩
  | cons r rest ih =>
    intro isFirst so fuel hfuel
    simp only [List.length_cons] at hfuel
    match fuel, hfuel with
    | f + 1, _ =>
      have hp : pollNextM ⟨0, so, r :: rest, isFirst, false, bd, ct, fl⟩ =
          (some (strByteLen (renderMultipartHeader bd ct r isFirst fl)),
            ⟨r.length, r.start, rest, false, false, bd, ct, fl⟩) := rfl
      rw [drainFuel_succ_some f _ _ _ hp]
      by_cases hr : r.length = 0
      · rw [hr]
        have ihres := ih false r.start f (by omega)
        have h1 := ihres.1
        have h2 := ihres.2
        refine ⟨?_, h2⟩
        show strByteLen (renderMultipartHeader bd ct r isFirst fl) +
            (drainFuel f ⟨0, r.start, rest, false, false, bd, ct, fl⟩).1 = _
        simp only [computeLengthGo]
        omega
      · obtain ⟨f1, rfl⟩ : ∃ f1, f = f1 + 1 := ⟨f - 1, by omega⟩
        have hp2 : pollNextM ⟨r.length, r.start, rest, false, false, bd, ct, fl⟩ =
            (some r.length, ⟨0, r.start, rest, false, false, bd, ct, fl⟩) :=
          pollNextM_flush _ rfl hr
        rw [drainFuel_succ_some f1 _ _ _ hp2]
        have ihres := ih false r.start f1 (by omega)
        have h1 := ihres.1
        refine ⟨?_, ihres.2⟩
        show strByteLen (renderMultipartHeader bd ct r isFirst fl) +
            (r.length +
              (drainFuel f1 ⟨0, r.start, rest, false, false, bd, ct, fl⟩).1) = _
        simp only [computeLengthGo]
        omega

/-- Draining a freshly constructed multi-range stream with enough fuel
emits exactly `compute_length` bytes and ends the stream. -/
theorem drainFuel_mkMultiRange (ranges : List HttpRangeM) (bd ct : String)
    (fl fuel : Nat) (hfuel : 2 * ranges.length + 2 ≤ fuel) :
    (drainFuel fuel (mkMultiRange ranges bd ct fl)).1 =
        computeLength (mkMultiRange ranges bd ct fl) ∧
      (drainFuel fuel (mkMultiRange ranges bd ct fl)).2.completed = true := by
  have h := drainFuel_zero_rem bd ct fl ranges true 0 fuel hfuel
  exact ⟨h.1, h.2⟩

/-- C2. For a multi-range body stream freshly constructed from a
non-empty range list, a boundary, a per-part content type and a file
length, `compute_length()` equals the total number of body bytes the
stream emits to end-of-stream (each ranged read delivering exactly the
requested bytes): draining with enough fuel emits exactly
`compute_length` bytes and completes the stream. -/
theorem multiRange_computeLength_eq_emitted (ranges : List HttpRangeM)
    (bd ct : String) (fl fuel : Nat) (hne : ranges ≠ [])
    (hfuel : 2 * ranges.length + 2 ≤ fuel) :
    (drainFuel fuel (mkMultiRange ranges bd ct fl)).1 =
        computeLength (mkMultiRange ranges bd ct fl) ∧
      (drainFuel fuel (mkMultiRange ranges bd ct fl)).2.completed = true :=
  drainFuel_mkMultiRange ranges bd ct fl fuel hfuel

/-- C2 witness: the theorem instantiated at two concrete ranges of a
10-byte file. -/
theorem multiRange_computeLength_witness :
    ([⟨2, 3⟩, ⟨7, 1⟩] : List HttpRangeM) ≠ [] ∧
      (drainFuel 6 (mkMultiRange [⟨2, 3⟩, ⟨7, 1⟩] "B" "text/plain" 10)).1 =
        computeLength (mkMultiRange [⟨2, 3⟩, ⟨7, 1⟩] "B" "text/plain" 10) :=
  ⟨by decide,
    (multiRange_computeLength_eq_emitted [⟨2, 3⟩, ⟨7, 1⟩] "B" "text/plain" 10 6
      (by decide) (by decide)).1⟩

/-- C6. The rendered multipart part header is exactly: an optional
leading CRLF (present iff the part is not the first), the dashed
boundary line, a `Content-Range: start-end/total` line with no
`bytes ` unit prefix and `end = start + length - 1`, an optional
`Content-Type` line (omitted iff the content-type string is empty),
and a blank line. -/
theorem renderMultipartHeader_format (bd ct : String) (r : HttpRangeM)
    (isFirst : Bool) (fl : Nat) :
    renderMultipartHeader bd ct r isFirst fl =
        (if isFirst then "" else "\r\n") ++
          ("--" ++ bd ++ "\r\nContent-Range: " ++ toString r.start ++ "-" ++
            toString (r.start + r.length - 1) ++ "/" ++ toString fl ++ "\r\n" ++
            ((if ct = "" then "" else "Content-Type: " ++ ct ++ "\r\n") ++ "\r\n")) ∧
      renderMultipartHeader bd ct r false fl =
        "\r\n" ++ renderMultipartHeader bd ct r true fl := by
  refine ⟨?_, renderMultipartHeader_false bd ct r fl⟩
  cases isFirst <;> by_cases hct : ct = "" <;>
    simp only [renderMultipartHeader, hct, if_true, reduceIte, Bool.false_eq_true] <;>
    apply String.ext <;>
    simp [String.data_append, List.append_assoc]

/-- C8. After the first poll of a fresh multi-range stream (which emits
the first part header and moves that range out of the iterator),
`compute_length()` no longer counts the first part: it returns only
the sum over the ranges not yet started — with the next part now
treated as first — plus the closing boundary, and is strictly smaller
than the total body length the stream emits from the start. So the
Content-Length is correct only when computed before the first poll. -/
theorem computeLength_after_first_poll (bd ct : String) (fl : Nat)
    (r : HttpRangeM) (rest : List HttpRangeM) (fuel : Nat)
    (hfuel : 2 * (r :: rest).length + 2 ≤ fuel) :
    (pollNextM (mkMultiRange (r :: rest) bd ct fl)).1 =
        some (strByteLen (renderMultipartHeader bd ct r true fl)) ∧
      computeLength (pollNextM (mkMultiRange (r :: rest) bd ct fl)).2 =
          computeLengthGo bd ct fl rest true +
            strByteLen (renderMultipartHeaderEnd bd) ∧
        computeLength (pollNextM (mkMultiRange (r :: rest) bd ct fl)).2 <
          (drainFuel fuel (mkMultiRange (r :: rest) bd ct fl)).1 := by
  have hdrain :=
    (drainFuel_mkMultiRange (r :: rest) bd ct fl fuel hfuel).1
  refine ⟨rfl, rfl, ?_⟩
  rw [hdrain]
  show computeLengthGo bd ct fl rest true +
      strByteLen (renderMultipartHeaderEnd bd) <
    computeLength (mkMultiRange (r :: rest) bd ct fl)
  show _ < computeLengthGo bd ct fl (r :: rest) true +
    strByteLen (renderMultipartHeaderEnd bd)
  have hle := computeLengthGo_first_le bd ct fl rest
  have hpos := renderMultipartHeader_len_pos bd ct r true fl
  simp only [computeLengthGo]
  omega

/-- C8 witness: the theorem instantiated at two concrete ranges of a
10-byte file. -/
theorem computeLength_after_first_poll_witness :
    (pollNextM (mkMultiRange [⟨2, 3⟩, ⟨7, 1⟩] "B" "" 10)).1 =
        some (strByteLen (renderMultipartHeader "B" "" ⟨2, 3⟩ true 10)) ∧
      computeLength (pollNextM (mkMultiRange [⟨2, 3⟩, ⟨7, 1⟩] "B" "" 10)).2 =
          computeLengthGo "B" "" 10 [⟨7, 1⟩] true +
            strByteLen (renderMultipartHeaderEnd "B") ∧
        computeLength (pollNextM (mkMultiRange [⟨2, 3⟩, ⟨7, 1⟩] "B" "" 10)).2 <
          (drainFuel 6 (mkMultiRange [⟨2, 3⟩, ⟨7, 1⟩] "B" "" 10)).1 :=
  computeLength_after_first_poll "B" "" 10 ⟨2, 3⟩ [⟨7, 1⟩] 6 (by decide)

/-! ## FileBytesStream and the FileAccess readers (`file_bytes_stream.rs`, `vfs.rs`) -/

/-- `TOKIO_READ_BUF_SIZE` (vfs.rs line 30). -/
def tokioReadBufSize : Nat := 8 * 1024

/-- Length of the chunk returned by `TokioFileAccess::poll_read`
(vfs.rs lines 101-126): the read buffer is capped at
`min(len, TOKIO_READ_BUF_SIZE)` and the underlying file fills `fill`
bytes, never beyond the buffer capacity (`ReadBuf` enforces this); the
returned chunk copies exactly the filled bytes. -/
def tokioReadChunkLen (fill len : Nat) : Nat :=
  min fill (min len tokioReadBufSize)

/-- Length of the chunk returned by the `Cursor<Bytes>` `poll_read`
(vfs.rs lines 196-216): empty when the position is past the end,
otherwise `min(content_len - pos, len)`. -/
def cursorReadChunkLen (pos contentLen len : Nat) : Nat :=
  if contentLen < pos then 0 else min (contentLen - pos) len

/-- One poll of `FileBytesStream::poll_next` (file_bytes_stream.rs
lines 40-61): `poll_read` is invoked with the remaining budget as the
length cap, and the returned chunk length is subtracted from the
budget. `readLen` maps the requested cap to the chunk length the
backend returns on this poll. -/
def fbsPollLen (readLen : Nat → Nat) (remaining : Nat) : Nat × Nat :=
  let chunk := readLen remaining
  (chunk, remaining - chunk)

/-- Runs a sequence of polls against the stream, returning the emitted
chunk lengths and the final remaining budget. -/
def fbsRun : List (Nat → Nat) → Nat → List Nat × Nat
  | [], remaining => ([], remaining)
  | f :: rest, remaining =>
    let step := fbsPollLen f remaining
    let next := fbsRun rest step.2
    (step.1 :: next.1, next.2)

/-- C9. The budget subtraction in `FileBytesStream::poll_next` never
underflows: both `FileAccess` readers return at most the requested
number of bytes, and for any poll sequence whose reads respect that
cap the remaining budget plus the emitted bytes always equals the
initial limit exactly (so each per-poll chunk is at most the budget it
is subtracted from), and the stream emits at most its initial limit in
total. -/
theorem fileBytesStream_no_underflow :
    (∀ fill len, tokioReadChunkLen fill len ≤ len) ∧
      (∀ pos contentLen len, cursorReadChunkLen pos contentLen len ≤ len) ∧
      ∀ reads : List (Nat → Nat), (∀ f ∈ reads, ∀ n, f n ≤ n) →
        ∀ limit, (fbsRun reads limit).1.sum ≤ limit ∧
          (fbsRun reads limit).2 + (fbsRun reads limit).1.sum = limit := by
  refine ⟨?_, ?_, ?_⟩
  · intro fill len
    simp only [tokioReadChunkLen]
    omega
  · intro pos contentLen len
    simp only [cursorReadChunkLen]
    split <;> omega
  · intro reads
    induction reads with
    | nil => intro _ limit; simp [fbsRun]
    | cons f rest ih =>
      intro hcap limit
      have hf : f limit ≤ limit := hcap f (List.mem_cons_self _ _) limit
      have ihres := ih (fun g hg => hcap g (List.mem_cons_of_mem _ hg))
        (limit - f limit)
      have h1 := ihres.1
      have h2 := ihres.2
      simp only [fbsRun, fbsPollLen, List.sum_cons]
      constructor <;> omega

/-- C9 witness: a disk read followed by an in-memory read against a
100-byte budget. -/
theorem fileBytesStream_no_underflow_witness :
    (fbsRun [fun n => tokioReadChunkLen 5000 n,
        fun n => cursorReadChunkLen 0 3 n] 100).1.sum ≤ 100 ∧
      (fbsRun [fun n => tokioReadChunkLen 5000 n,
          fun n => cursorReadChunkLen 0 3 n] 100).2 +
        (fbsRun [fun n => tokioReadChunkLen 5000 n,
            fun n => cursorReadChunkLen 0 3 n] 100).1.sum = 100 :=
  fileBytesStream_no_underflow.2.2 _
    (by
      intro f hf n
      rcases List.mem_cons.mp hf with h | h
      · subst h
        exact fileBytesStream_no_underflow.1 5000 n
      · rcases List.mem_cons.mp h with h2 | h2
        · subst h2
          exact fileBytesStream_no_underflow.2.1 0 3 n
        · simp at h2)
    100

/-! ## Resolver (`src/resolve.rs`) -/

/-- A point in time: seconds since the Unix epoch (negative when before
it) and a sub-second nanosecond part in `[0, 10^9)`. Models
`std::time::SystemTime`. -/
structure SystemTimeM where
  secs : Int
  nanos : Nat
deriving DecidableEq

/-- A nonnegative duration (seconds and nanoseconds). -/
structure DurationM where
  secs : Nat
  nanos : Nat
deriving DecidableEq

/-- `SystemTime::duration_since(UNIX_EPOCH)`: defined exactly when the
time is not before the epoch, i.e. when `secs` is nonnegative. -/
def durationSinceEpoch (t : SystemTimeM) : Option DurationM :=
  if 0 ≤ t.secs then some ⟨t.secs.toNat, t.nanos⟩ else none

/-- The content encodings (resolve.rs lines 257-262). -/
inductive EncodingM where
  | gzip : EncodingM
  | br : EncodingM
  | zstd : EncodingM
deriving DecidableEq

/-- `Encoding::to_header_value` (resolve.rs lines 264-272). -/
def encodingHeaderValue : EncodingM → String
  | .gzip => "gzip"
  | .br => "br"
  | .zstd => "zstd"

/-- `AcceptEncoding` flags (resolve.rs lines 275-280). -/
structure AcceptEncodingM where
  gzip : Bool
  br : Bool
  zstd : Bool
deriving DecidableEq

/-- `FileWithMetadata` (vfs.rs lines 33-41); the backend file handle is
modelled by an identifier. -/
structure FileWithMetadataM where
  handle : Nat
  size : Nat
  modified : Option SystemTimeM
  is_dir : Bool
deriving DecidableEq

/-- `ResolvedFile` (resolve.rs lines 18-26). -/
structure ResolvedFileM where
  handle : Nat
  path : String
  size : Nat
  modified : Option SystemTimeM
  content_type : Option String
  encoding : Option EncodingM
deriving DecidableEq

/-- `ResolvedFile::new` (resolve.rs lines 28-44). -/
def ResolvedFileM.new (file : FileWithMetadataM) (path : String)
    (content_type : Option String) (encoding : Option EncodingM) : ResolvedFileM :=
  { handle := file.handle, path := path, size := file.size,
    modified := file.modified, content_type := content_type,
    encoding := encoding }

/-- `ResolveResult` (resolve.rs lines 68-75). -/
inductive ResolveResultM where
  | methodNotMatched : ResolveResultM
  | notFound : ResolveResultM
  | permissionDenied : ResolveResultM
  | isDirectory (redirect_to : String) : ResolveResultM
  | found (file : ResolvedFileM) : ResolveResultM
deriving DecidableEq

/-- The gzip block of `resolve_final` (resolve.rs lines 227-238) and
its fall-through to the unencoded original (lines 240-242). `opener`
models `self.opener.open` restricted to successful opens (`none` for
any error); `if let Ok(file)` on a sibling is a match on that option. -/
def resolveFinalGzip (opener : String → Option FileWithMetadataM)
    (mimetype : Option String) (file : FileWithMetadataM) (path : String)
    (ae : AcceptEncodingM) : ResolveResultM :=
  match (if ae.gzip then opener (path ++ ".gz") else none) with
  | some f => .found (ResolvedFileM.new f (path ++ ".gz") mimetype (some .gzip))
  | none => .found (ResolvedFileM.new file path mimetype none)

/-- The br block of `resolve_final` (resolve.rs lines 215-226). -/
def resolveFinalBr (opener : String → Option FileWithMetadataM)
    (mimetype : Option String) (file : FileWithMetadataM) (path : String)
    (ae : AcceptEncodingM) : ResolveResultM :=
  match (if ae.br then opener (path ++ ".br") else none) with
  | some f => .found (ResolvedFileM.new f (path ++ ".br") mimetype (some .br))
  | none => resolveFinalGzip opener mimetype file path ae

/-- `Resolver::resolve_final` (resolve.rs lines 192-243): guess the
MIME type from the original path (`mimeFor` models the composite of
`MimeGuess::from_path` and `set_charset`), then try the zstd sibling
(suffix `zst`, pushed onto the raw path string with no dot), the br
sibling (`.br`), and the gzip sibling (`.gz`), in that order, each
only when its flag is allowed; the first sibling that opens wins. -/
def resolveFinal (opener : String → Option FileWithMetadataM)
    (mimeFor : String → Option String) (file : FileWithMetadataM)
    (path : String) (ae : AcceptEncodingM) : ResolveResultM :=
  let mimetype := mimeFor path
  match (if ae.zstd then opener (path ++ "zst") else none) with
  | some f => .found (ResolvedFileM.new f (path ++ "zst") mimetype (some .zstd))
  | none => resolveFinalBr opener mimetype file path ae

/-- Modelled from the claim text: the suffix appended for each
pre-compressed sibling (`zst` with no dot, `.br`, `.gz`). -/
def encSuffixSpec : EncodingM → String
  | .zstd => "zst"
  | .br => ".br"
  | .gzip => ".gz"

/-- Modelled from the claim text: whether an encoding is allowed. -/
def encAllowedSpec (ae : AcceptEncodingM) : EncodingM → Bool
  | .zstd => ae.zstd
  | .br => ae.br
  | .gzip => ae.gzip

/-- Modelled from the claim text: try each encoding in the given order;
the first allowed sibling that opens is returned with that encoding,
the sibling path and the sibling metadata, keeping the content type of
the original; if none opens, return the original with no encoding. -/
def tryEncodingsSpec (opener : String → Option FileWithMetadataM)
    (mimetype : Option String) (file : FileWithMetadataM) (path : String)
    (ae : AcceptEncodingM) : List EncodingM → ResolveResultM
  | [] => .found (ResolvedFileM.new file path mimetype none)
  | e :: rest =>
    if encAllowedSpec ae e then
      match opener (path ++ encSuffixSpec e) with
      | some f => .found (ResolvedFileM.new f (path ++ encSuffixSpec e) mimetype (some e))
      | none => tryEncodingsSpec opener mimetype file path ae rest
    else tryEncodingsSpec opener mimetype file path ae rest

/-- Modelled from the claim text: sibling selection in the fixed
priority order zstd, br, gzip, with the content type guessed from the
original file name. -/
def resolveFinalSpec (opener : String → Option FileWithMetadataM)
    (mimeFor : String → Option String) (file : FileWithMetadataM)
    (path : String) (ae : AcceptEncodingM) : ResolveResultM :=
  tryEncodingsSpec opener (mimeFor path) file path ae [.zstd, .br, .gzip]

/-- C5. `resolve_final` implements exactly the specified sibling
selection: the fixed order zstd (`zst`, no dot), br (`.br`), gzip
(`.gz`); the first allowed sibling that opens is returned as the
`Found` result with that encoding, the sibling metadata (hence the
sibling size) and the content type guessed from the original path; if
no allowed sibling opens, the original file is returned with no
encoding. -/
theorem resolveFinal_eq_spec (opener : String → Option FileWithMetadataM)
    (mimeFor : String → Option String) (file : FileWithMetadataM)
    (path : String) (ae : AcceptEncodingM) :
    resolveFinal opener mimeFor file path ae =
      resolveFinalSpec opener mimeFor file path ae := by
  cases hz : ae.zstd <;> cases hb : ae.br <;> cases hg : ae.gzip <;>
    simp [resolveFinal, resolveFinalSpec, resolveFinalBr, resolveFinalGzip,
      tryEncodingsSpec, encAllowedSpec, encSuffixSpec, hz, hb, hg]

/-! ## Response builder (`src/util/file_response_builder.rs`) -/

/-- Lowercase hexadecimal rendering of a natural, as Rust `{:x}`. -/
def natToHex (n : Nat) : String :=
  ⟨Nat.toDigits 16 n⟩

/-- `FileResponseBuilder` (file_response_builder.rs lines 18-25). -/
structure FileResponseBuilderM where
  cache_headers : Option Nat
  is_head : Bool
  if_modified_since : Option SystemTimeM
  range : Option String
  if_range : Option String
deriving DecidableEq

/-- The body variants of `Body` (body.rs lines 10-15), carrying the
data that determines the bytes each stream will produce: the byte
budget of a full stream, the range of a single-range stream, and the
full state of a multi-range stream. -/
inductive BodyM where
  | empty : BodyM
  | full (limit : Nat) : BodyM
  | range (r : HttpRangeM) : BodyM
  | multiRange (s : MultiRangeState) : BodyM

/-- An HTTP response head plus body selection. -/
structure ResponseM where
  status : Nat
  headers : List (String × String)
  body : BodyM

/-- Outcome of `HttpRange::parse` in the external `http_range` crate
(treated as a black box: the builder only dispatches on its result). -/
inductive RangeParseResultM where
  | ok (ranges : List HttpRangeM) : RangeParseResultM
  | noOverlap : RangeParseResultM
  | invalidRange : RangeParseResultM
deriving DecidableEq

/-- `MIN_VALID_MTIME` comparison (file_response_builder.rs lines 14,
94-99): `Duration` ordering is lexicographic on seconds then
nanoseconds and the threshold is exactly 2 seconds, so
`d >= MIN_VALID_MTIME` reduces to `2 ≤ d.secs`. -/
def minValidMtimeLe (d : DurationM) : Bool :=
  decide (2 ≤ d.secs)

/-- The `modified` filter at the top of `build`
(file_response_builder.rs lines 94-99): keep the mtime only when
`duration_since(UNIX_EPOCH)` succeeds and is at least 2 seconds. -/
def filteredModified (modified : Option SystemTimeM) : Option SystemTimeM :=
  modified.filter fun v =>
    ((durationSinceEpoch v).filter minValidMtimeLe).isSome

/-- The weak ETag (file_response_builder.rs lines 111-116). -/
def etagFor (size : Nat) (mu : DurationM) : String :=
  "w/\"" ++ natToHex size ++ "-" ++ natToHex mu.secs ++ "." ++
    natToHex mu.nanos ++ "\""

/-- The conditional/validator block of `build`
(file_response_builder.rs lines 93-137): computes the headers
accumulated so far and the final `range_cond_ok` flag; `none` models
the early `return` of a 304 response, taken whenever a filtered mtime
is present and `if_modified_since` holds a time at or after the epoch
— no comparison of the two times is made. `fmtDate` models
`httpdate::fmt_http_date`. -/
def condHeaders (fmtDate : SystemTimeM → String) (b : FileResponseBuilderM)
    (file : ResolvedFileM) : Option (List (String × String) × Bool) :=
  let modified := filteredModified file.modified
  let rco := b.if_range.isNone
  match modified with
  | none => some ([], rco)
  | some m =>
    match durationSinceEpoch m with
    | none =>
      let lastModified := fmtDate m
      let rco := if b.if_range = some lastModified then true else rco
      some ([("last-modified", lastModified), ("accept-ranges", "bytes")], rco)
    | some mu =>
      match b.if_modified_since.map durationSinceEpoch with
      | some (some _) => none
      | _ =>
        let etag := etagFor file.size mu
        let rco := if b.if_range = some etag then true else rco
        let lastModified := fmtDate m
        let rco := if b.if_range = some lastModified then true else rco
        some ([("etag", etag), ("last-modified", lastModified),
          ("accept-ranges", "bytes")], rco)

/-- `content_range_header` (file_response_builder.rs lines 233-240);
note the `bytes ` unit, present here but not in the multipart part
headers. -/
def contentRangeHeaderVal (r : HttpRangeM) (total : Nat) : String :=
  "bytes " ++ toString r.start ++ "-" ++ toString (r.start + r.length - 1) ++
    "/" ++ toString total

/-- The full-body tail of `build` (file_response_builder.rs lines
217-230). -/
def buildFull (file : ResolvedFileM) (res : List (String × String)) : ResponseM :=
  let res := res ++ [("content-length", toString file.size)]
  let res := match file.content_type with
    | some ct => res ++ [("content-type", ct)]
    | none => res
  let res := match file.encoding with
    | some e => res ++ [("content-encoding", encodingHeaderValue e)]
    | none => res
  { status := 200, headers := res, body := .full file.size }

/-- The remainder of `build` after the conditional block
(file_response_builder.rs lines 139-230): cache headers, the HEAD
short-circuit, range parsing and dispatch, and the full-body
fallback. `parse` models `HttpRange::parse` against the snapshot file
size; `boundary` models the generated random boundary. -/
def buildTail (parse : String → Nat → RangeParseResultM) (boundary : String)
    (b : FileResponseBuilderM) (file : ResolvedFileM)
    (res : List (String × String)) (rco : Bool) : ResponseM :=
  let res := match b.cache_headers with
    | some seconds => res ++ [("cache-control", "public, max-age=" ++ toString seconds)]
    | none => res
  if b.is_head then
    { status := 200, headers := res ++ [("content-length", toString file.size)],
      body := .empty }
  else
    let ranges : Option (Except Unit (List HttpRangeM)) :=
      match b.range with
      | none => none
      | some r =>
        if rco then
          match parse r file.size with
          | .ok rs => some (.ok rs)
          | .noOverlap => some (.error ())
          | .invalidRange => none
        else none
    match ranges with
    | some (.error _) => { status := 416, headers := res, body := .empty }
    | some (.ok rs) =>
      match rs with
      | [single] =>
        { status := 206,
          headers := res ++
            [("content-range", contentRangeHeaderVal single file.size),
              ("content-length", toString single.length)],
          body := .range single }
      | r1 :: r2 :: rrest =>
        let stream0 := newMultiRange (r1 :: r2 :: rrest) boundary file.size
        let stream := match file.content_type with
          | some ct => setContentType stream0 ct
          | none => stream0
        { status := 206,
          headers := res ++
            [("content-type", "multipart/byteranges; boundary=" ++ boundary),
              ("content-length", toString (computeLength stream))],
          body := .multiRange stream }
      | [] => buildFull file res
    | none => buildFull file res

/-- `FileResponseBuilder::build` (file_response_builder.rs lines
89-231): the conditional block either returns 304 early or yields the
accumulated headers and the `range_cond_ok` flag for the tail. -/
def buildM (parse : String → Nat → RangeParseResultM)
    (fmtDate : SystemTimeM → String) (boundary : String)
    (b : FileResponseBuilderM) (file : ResolvedFileM) : ResponseM :=
  match condHeaders fmtDate b file with
  | none => { status := 304, headers := [], body := .empty }
  | some (res, rco) => buildTail parse boundary b file res rco

/-- C3. For a `Found` file whose filtered mtime is present (at least 2
seconds after the epoch), any `If-Modified-Since` value that parsed as
an HTTP date (hence is at or after the epoch, as `httpdate` only
yields years from 1970 on) makes `build` return status 304 with an
empty body and no headers, before any Range or If-Range processing
and regardless of how the two timestamps compare: the builder fields
`range` and `if_range` are arbitrary here and the conclusion does not
depend on them. -/
theorem build_304_short_circuit (parse : String → Nat → RangeParseResultM)
    (fmtDate : SystemTimeM → String) (boundary : String)
    (b : FileResponseBuilderM) (file : ResolvedFileM) (m t : SystemTimeM)
    (hm : file.modified = some m) (hm2 : 2 ≤ m.secs)
    (ht : b.if_modified_since = some t) (ht0 : 0 ≤ t.secs) :
    buildM parse fmtDate boundary b file =
      { status := 304, headers := [], body := .empty } := by
  have h0m : (0 : Int) ≤ m.secs := by omega
  have hd : durationSinceEpoch m = some ⟨m.secs.toNat, m.nanos⟩ := by
    simp [durationSinceEpoch, h0m]
  have hdt : durationSinceEpoch t = some ⟨t.secs.toNat, t.nanos⟩ := by
    simp [durationSinceEpoch, ht0]
  have hmv : minValidMtimeLe ⟨m.secs.toNat, m.nanos⟩ = true := by
    simp [minValidMtimeLe]
    omega
  have hmod : filteredModified file.modified = some m := by
    simp [filteredModified, hm, hd, Option.filter, hmv]
  simp [buildM, condHeaders, hmod, hd, ht, hdt]

/-- C3 witness: a file modified 5 seconds after the epoch and an
`If-Modified-Since` of 100 seconds after the epoch (later than the
mtime) still yields a 304. -/
theorem build_304_witness :
    buildM (fun _ _ => .invalidRange) (fun _ => "") ""
        ⟨none, false, some ⟨100, 0⟩, some "bytes=0-1", none⟩
        ⟨0, "a.txt", 10, some ⟨5, 0⟩, none, none⟩ =
      { status := 304, headers := [], body := .empty } :=
  build_304_short_circuit (fun _ _ => .invalidRange) (fun _ => "") ""
    ⟨none, false, some ⟨100, 0⟩, some "bytes=0-1", none⟩
    ⟨0, "a.txt", 10, some ⟨5, 0⟩, none, none⟩ ⟨5, 0⟩ ⟨100, 0⟩
    rfl (by decide) rfl (by decide)

/-- C4. For a `Found` file with a Range header, `range_cond_ok` true
and no 304 short-circuit (`condHeaders` returned, with the flag true)
on a GET request (`is_head = false`), the parse outcome against the
snapshot size decides among exactly three responses: one or more
parsed ranges give status 206; a no-overlap error gives status 416
with an empty body (no body stream); a syntactically invalid range is
ignored and the full-body 200 response is produced. -/
theorem build_range_outcomes (parse : String → Nat → RangeParseResultM)
    (fmtDate : SystemTimeM → String) (boundary : String)
    (b : FileResponseBuilderM) (file : ResolvedFileM) (r : String)
    (res : List (String × String))
    (hhead : b.is_head = false) (hrange : b.range = some r)
    (hcond : condHeaders fmtDate b file = some (res, true)) :
    (∀ rs, parse r file.size = .ok rs → rs ≠ [] →
        (buildM parse fmtDate boundary b file).status = 206) ∧
      (parse r file.size = .noOverlap →
        (buildM parse fmtDate boundary b file).status = 416 ∧
          (buildM parse fmtDate boundary b file).body = .empty) ∧
      (parse r file.size = .invalidRange →
        (buildM parse fmtDate boundary b file).status = 200 ∧
          (buildM parse fmtDate boundary b file).body = .full file.size) := by
  refine ⟨?_, ?_, ?_⟩
  · intro rs hok hne
    cases rs with
    | nil => exact absurd rfl hne
    | cons r1 rrest =>
      cases rrest with
      | nil => simp [buildM, hcond, buildTail, hhead, hrange, hok]
      | cons r2 rrest2 => simp [buildM, hcond, buildTail, hhead, hrange, hok]
  · intro hno
    constructor <;> simp [buildM, hcond, buildTail, hhead, hrange, hno]
  · intro hinv
    constructor <;>
      simp [buildM, hcond, buildTail, hhead, hrange, hinv, buildFull]

/-- C4 witness: a no-overlap parse against a 10-byte file on a GET
with no validators yields the 416 empty response. -/
theorem build_range_outcomes_witness :
    (buildM (fun _ _ => .noOverlap) (fun _ => "") "B"
        ⟨none, false, none, some "bytes=100-", none⟩
        ⟨0, "f.txt", 10, none, none, none⟩).status = 416 ∧
      (buildM (fun _ _ => .noOverlap) (fun _ => "") "B"
          ⟨none, false, none, some "bytes=100-", none⟩
          ⟨0, "f.txt", 10, none, none, none⟩).body = .empty :=
  (build_range_outcomes (fun _ _ => .noOverlap) (fun _ => "") "B"
      ⟨none, false, none, some "bytes=100-", none⟩
      ⟨0, "f.txt", 10, none, none, none⟩ "bytes=100-" []
      rfl rfl rfl).2.1 rfl
